import Mathlib

/-!
Verification of the search core of the INST326_GICodeProject repository.

The definitions below are a shallow embedding of the Python source:

* `src/src/library_name.py` — `clean_text`, `build_inverted_index`,
  `boolean_retrieval`, `rank_documents`, `semantic_search`,
  `normalize_query`, `filter_sort_paginate_results`;
* `src/src/search_system.py` — the `BooleanSearchEngine`,
  `RankedSearchEngine` and `SemanticSearchEngine` classes
  (`add_document`, `execute_search`, `set_similarity_threshold`).

Python text is modelled as `List Char` (a `String` is unpacked with
`.data`), Python `float` scores as `ℚ`, Python `dict`/`set` of document
ids as functions into `Finset ℕ`, and Python's stable `sorted(...,
reverse=True)` as a stability-preserving insertion sort.  Lowercasing
uses `Char.toLower`, which agrees with Python `str.lower` on the ASCII
range handled by this repository.
-/

/-- ASCII whitespace characters recognized by Python's `str.split()` and
`str.strip()` (space, tab, newline, carriage return, vertical tab, form
feed). -/
def isPySpace (c : Char) : Bool :=
  c = ' ' || c = '\t' || c = '\n' || c = '\r' || c = Char.ofNat 11 || c = Char.ofNat 12

/-- Accumulator-passing core of whitespace tokenization: `acc` holds the
characters of the word currently being read, in reverse. -/
def splitWsGo : List Char → List Char → List (List Char)
  | [], acc => if acc.isEmpty then [] else [acc.reverse]
  | c :: rest, acc =>
    if isPySpace c then
      if acc.isEmpty then splitWsGo rest [] else acc.reverse :: splitWsGo rest []
    else splitWsGo rest (c :: acc)

/-- Python `str.split()` with no argument: split on runs of whitespace,
discarding empty pieces. -/
def pySplit (l : List Char) : List (List Char) := splitWsGo l []

/-- `clean_text` from `library_name.py`: `text.lower()` (lowercase only). -/
def clean_text (l : List Char) : List Char := l.map Char.toLower

/-- The token list of a text, as every retrieval function computes it:
`clean_text(text).split()`. -/
def tokensOf (l : List Char) : List (List Char) := pySplit (clean_text l)

/-- The per-document loop body of `rank_documents` (`library_name.py`
lines 334-348): the raw score sums, over the set of distinct query
tokens, the token's whole-token count in the document
(`doc_counter[token]`); iterating over a Python `set` is modelled by a
`Finset` sum.  If the document has tokens the raw score is divided by
the token count (`score / len(doc_tokens)`); otherwise it is left
untouched. -/
def scoreFor (q doc : List Char) : ℚ :=
  let dtoks := tokensOf doc
  let raw : ℕ := ∑ t in (tokensOf q).toFinset, dtoks.count t
  if dtoks.isEmpty then (raw : ℚ) else (raw : ℚ) / dtoks.length

/-- The `scores` list of `rank_documents`: one `(doc_id, score)` pair per
document, in `enumerate` order. -/
def scoresList (q : List Char) (docs : List (List Char)) : List (ℕ × ℚ) :=
  docs.enum.map (fun p => (p.1, scoreFor q p.2))

/-- Insert `x` in front of the first element whose key is `≤ key x`.
Together with `sortDescBy` this is the unique stable descending sort,
i.e. the behaviour of Python's `sorted(..., key=..., reverse=True)`:
keys are non-increasing and equal-key elements keep their original
relative order. -/
def insertDescBy {α β : Type*} [LinearOrder β] (key : α → β) (x : α) : List α → List α
  | [] => [x]
  | y :: ys => if key y ≤ key x then x :: y :: ys else y :: insertDescBy key x ys

/-- Stable descending sort by `key`; models Python's stable
`sorted(..., key=..., reverse=True)`. -/
def sortDescBy {α β : Type*} [LinearOrder β] (key : α → β) : List α → List α
  | [] => []
  | x :: xs => insertDescBy key x (sortDescBy key xs)

/-- `rank_documents` from `library_name.py` (lines 315-352): score every
document, sort by score in descending order (stable), return the first
`top_k` entries. -/
def rank_documents (q : List Char) (docs : List (List Char)) (topK : ℕ) :
    List (ℕ × ℚ) :=
  (sortDescBy Prod.snd (scoresList q docs)).take topK

/-- `semantic_search` from `library_name.py` (lines 355-379): with no
model it falls back to `rank_documents`; with a model it prints a
warning and falls back to `rank_documents` as well. -/
def semantic_search (q : List Char) (docs : List (List Char)) (model : Option Unit)
    (topK : ℕ) : List (ℕ × ℚ) :=
  match model with
  | none => rank_documents q docs topK
  | some _ => rank_documents q docs topK

/-- A document as the search engines store it: the `doc_id` key is not
used by any execute path, so only `title` and `text` are kept. -/
structure EDoc where
  title : List Char
  text : List Char
  deriving DecidableEq

/-- The text the engines index for a document:
`f"{doc.get('title','')} {doc.get('text','')}"`. -/
def textContent (d : EDoc) : List Char := d.title ++ ' ' :: d.text

/-- The `documents_text` list every engine's `execute_search` builds. -/
def docTexts (docs : List EDoc) : List (List Char) := docs.map textContent

/-- `RankedSearchEngine.execute_search` (`search_system.py` lines
405-444), restricted to the `(doc_index, search_score)` content of the
result dictionaries: empty collection returns `[]`; otherwise
`rank_documents` over all documents (`top_k = len(documents_text)`),
keeping pairs whose index passes the `0 <= idx < len(collection)`
check. -/
def rankedExecute (docs : List EDoc) (q : List Char) : List (ℕ × ℚ) :=
  let texts := docTexts docs
  if texts.isEmpty then []
  else (rank_documents q texts texts.length).filter (fun p => decide (p.1 < docs.length))

/-- `SemanticSearchEngine.execute_search` (`search_system.py` lines
573-616) with no model stored (`self._model = None`): the
`semantic_search` fallback results, keeping pairs whose index is in
range and whose score is `>= self._similarity_threshold`. -/
def semanticExecute (docs : List EDoc) (q : List Char) (θ : ℚ) : List (ℕ × ℚ) :=
  let texts := docTexts docs
  if texts.isEmpty then []
  else (semantic_search q texts none texts.length).filter
    (fun p => decide (p.1 < docs.length) && decide (θ ≤ p.2))

/-- Strict ranking order on scored pairs: strictly larger score first,
ties resolved by smaller (earlier) original document index. -/
def rankRel (a b : ℕ × ℚ) : Prop := b.2 < a.2 ∨ (a.2 = b.2 ∧ a.1 < b.1)

/-- `build_inverted_index` from `library_name.py` (lines 264-286), as the
lookup function it induces: a term maps to the set of positions of the
documents containing it.  A term occurring in no document maps to the
empty set, exactly like `inverted_index.get(token, set())` in
`boolean_retrieval`. -/
def build_inverted_index (docs : List (List Char)) : List Char → Finset ℕ :=
  fun t => (Finset.range docs.length).filter (fun i => t ∈ tokensOf (docs.getD i []))

/-- `boolean_retrieval` from `library_name.py` (lines 288-313): tokenize
the query; empty token list returns the empty set; otherwise intersect
the posting sets of all tokens starting from the first one. -/
def boolean_retrieval (q : List Char) (index : List Char → Finset ℕ) : Finset ℕ :=
  match tokensOf q with
  | [] => ∅
  | t :: rest => rest.foldl (fun acc tk => acc ∩ index tk) (index t)

/-- `BooleanSearchEngine.execute_search` (`search_system.py` lines
265-300) on a freshly built index: if the inverted index dictionary is
empty (no document has any token) the Python `if self._inverted_index:`
guard returns `[]`; otherwise each matching index becomes a result with
`search_score = 1.0`.  CPython iterates a set of small ints in
increasing order, modelled by filtering `List.range`; the
`0 <= idx < len(collection)` bound check is the `range` bound. -/
def boolExecute (docs : List EDoc) (q : List Char) : List (ℕ × ℚ) :=
  let texts := docTexts docs
  if texts.any (fun t => !(tokensOf t).isEmpty) then
    ((List.range docs.length).filter
      (fun i => decide (i ∈ boolean_retrieval q (build_inverted_index texts)))).map
        (fun i => (i, (1 : ℚ)))
  else []

/-- The mutable state of a `SemanticSearchEngine` relevant to threshold
updates: the stored `_similarity_threshold` and the `_semantic_cache`
(content opaque here: query/score pairs). -/
structure SemanticEngineState where
  similarityThreshold : ℚ
  cache : List (List Char × ℚ)
  deriving DecidableEq

/-- `SemanticSearchEngine.set_similarity_threshold` (`search_system.py`
lines 636-648) as a state transformer: an out-of-range value raises
`ValueError` before any assignment, modelled by `Except.error` carrying
no new state (the caller's state stays `s`); an in-range value stores
the threshold and clears the cache. -/
def set_similarity_threshold (s : SemanticEngineState) (t : ℚ) :
    Except String SemanticEngineState :=
  if ¬(0 ≤ t ∧ t ≤ 1) then
    Except.error "Similarity threshold must be between 0.0 and 1.0"
  else
    Except.ok { s with similarityThreshold := t, cache := [] }

/-- The mutable state of a `BooleanSearchEngine`: the document
collection, the text snapshot the cached `_inverted_index` was built
from (`none` models `_inverted_index is None`), the `_index_built` flag,
and the `_is_initialized` flag of the base class. -/
structure BoolEngine where
  docs : List EDoc
  idxTexts : Option (List (List Char))
  indexBuilt : Bool
  isInitialized : Bool
  deriving DecidableEq

/-- A freshly constructed `BooleanSearchEngine`: empty collection, no
index, both flags false. -/
def BoolEngine.init : BoolEngine :=
  { docs := [], idxTexts := none, indexBuilt := false, isInitialized := false }

/-- `AbstractSearchEngine.add_document` (`search_system.py` lines
123-138): appends a copy of the document and resets `_is_initialized`.
Note that it does not touch the subclass's `_index_built` flag. -/
def add_document (e : BoolEngine) (d : EDoc) : BoolEngine :=
  { e with docs := e.docs ++ [d], isInitialized := false }

/-- `BooleanSearchEngine._build_inverted_index` (`search_system.py`
lines 316-330): with an empty collection it stores an empty dict and
returns early, leaving `_index_built` false; otherwise it stores the
index built from the current texts and sets `_index_built`. -/
def buildIndexStep (e : BoolEngine) : BoolEngine :=
  if e.docs.isEmpty then { e with idxTexts := some [] }
  else { e with idxTexts := some (docTexts e.docs), indexBuilt := true }

/-- `BooleanSearchEngine.execute_search` (`search_system.py` lines
265-300) as a state transformer: builds the index only when
`_index_built` is false, then queries whatever snapshot the cached
index was built from (see `boolExecute` for the per-result modelling). -/
def execute_search (e : BoolEngine) (q : List Char) : List (ℕ × ℚ) × BoolEngine :=
  let e2 := if e.indexBuilt then e else buildIndexStep e
  match e2.idxTexts with
  | none => ([], e2)
  | some texts =>
    if texts.any (fun t => !(tokensOf t).isEmpty) then
      (((List.range e2.docs.length).filter
        (fun i => decide (i ∈ boolean_retrieval q (build_inverted_index texts)))).map
          (fun i => (i, (1 : ℚ))), e2)
    else ([], e2)

/-- Left strip then right strip of ASCII whitespace: Python `str.strip()`
restricted to the ASCII whitespace the repository uses. -/
def pyStrip (l : List Char) : List Char :=
  ((l.dropWhile isPySpace).reverse.dropWhile isPySpace).reverse

/-- One pass of Python `str.replace('  ', ' ')`: scan left to right and
replace each non-overlapping double space by a single space. -/
def rep2 : List Char → List Char
  | c1 :: c2 :: rest =>
    if c1 = ' ' ∧ c2 = ' ' then ' ' :: rep2 rest else c1 :: rep2 (c2 :: rest)
  | l => l

/-- Whether the text contains two adjacent spaces (`'  ' in normalized`). -/
def hasDouble : List Char → Bool
  | c1 :: c2 :: rest => (c1 = ' ' && c2 = ' ') || hasDouble (c2 :: rest)
  | _ => false

/-- The `while '  ' in normalized:` loop of `normalize_query`, with fuel:
each iteration strictly shrinks the text, so `l.length` iterations
always suffice (`collapseGo_no_double` below). -/
def collapseGo : ℕ → List Char → List Char
  | 0, l => l
  | fuel + 1, l => if hasDouble l then collapseGo fuel (rep2 l) else l

/-- Collapse every run of two or more spaces to a single space, as the
`while` loop of `normalize_query` does. -/
def collapseSpaces (l : List Char) : List Char := collapseGo l.length l

/-- `normalize_query` from `library_name.py` (lines 134-163) on
character lists: `query.lower().strip()`, then collapse double spaces
until none remain. -/
def normalizeChars (l : List Char) : List Char := collapseSpaces (pyStrip (clean_text l))

/-- `normalize_query` on strings. -/
def normalize_query (s : String) : String := ⟨normalizeChars s.data⟩

/-- A result dictionary as `filter_sort_paginate_results` consumes it:
`doc_id` (modelled as a number so results are distinguishable), `title`,
`text`, and an optional `date`. -/
structure PRes where
  docId : ℕ
  title : List Char
  text : List Char
  date : Option (List Char)
  deriving DecidableEq

/-- Fuel-driven core of Python `str.count(sub)` for non-empty `sub`:
scan left to right, counting non-overlapping occurrences and skipping
`len(sub)` characters after each match. -/
def pyCntGo (sub : List Char) : ℕ → List Char → ℕ
  | _, [] => 0
  | 0, _ :: _ => 0
  | fuel + 1, c :: rest =>
    if sub.isPrefixOf (c :: rest) then 1 + pyCntGo sub fuel (rest.drop (sub.length - 1))
    else pyCntGo sub fuel rest

/-- Python `str.count(sub)`: non-overlapping substring occurrences; an
empty `sub` counts `len(s) + 1` as in CPython. -/
def pyCount (s sub : List Char) : ℕ :=
  if sub.isEmpty then s.length + 1 else pyCntGo sub s.length s

/-- The scoring loop body of `filter_sort_paginate_results`
(`library_name.py` lines 40-49): substring counts of each query term in
the lowercased title (doubled) and text, summed over the terms in
order. -/
def resScore (terms : List (List Char)) (r : PRes) : ℕ :=
  terms.foldl (fun acc term =>
    acc + pyCount (clean_text r.title) (clean_text term) * 2 +
      pyCount (clean_text r.text) (clean_text term)) 0

/-- The score-and-filter loop of `filter_sort_paginate_results` (lines
39-55): each result is scored; those meeting `min_score` survive, in
input order, paired with their score (the `result_copy["score"]`
field). -/
def scoreFilterStep (results : List PRes) (terms : List (List Char)) (minScore : ℚ) :
    List (PRes × ℕ) :=
  results.filterMap (fun r =>
    let sc := resScore terms r
    if minScore ≤ (sc : ℚ) then some (r, sc) else none)

/-- The sort step of `filter_sort_paginate_results` (lines 57-61):
`score` sorts by the score key descending; `date` sorts by
`x.get("date", "")` descending only when at least one surviving result
has a date key (`any(...)` in the source); otherwise the filtered order
is kept. -/
def sortStep (sortBy : String) (l : List (PRes × ℕ)) : List (PRes × ℕ) :=
  if sortBy = "score" then sortDescBy (fun p => p.2) l
  else if sortBy = "date" ∧ l.any (fun p => p.1.date.isSome) then
    sortDescBy (fun p => p.1.date.getD []) l
  else l

/-- The dictionary returned by `filter_sort_paginate_results`. -/
structure PageOut where
  results : List (PRes × ℕ)
  page : ℕ
  perPage : ℕ
  totalResults : ℕ
  totalPages : ℕ
  deriving DecidableEq

/-- `filter_sort_paginate_results` from `library_name.py` (lines 9-80):
score and filter, sort, then paginate with
`start = (page - 1) * per_page`, an empty page when `start` is past the
end, and `ceil` total pages computed as `(total + per_page - 1) //
per_page` guarded by `total > 0`. -/
def filter_sort_paginate_results (results : List PRes) (queryTerms : List (List Char))
    (page perPage : ℕ) (sortBy : String) (minScore : ℚ) : PageOut :=
  let scored := scoreFilterStep results queryTerms minScore
  let sorted := sortStep sortBy scored
  let totalResults := sorted.length
  let start := (page - 1) * perPage
  let pageResults := if totalResults ≤ start then [] else (sorted.drop start).take perPage
  { results := pageResults, page := page, perPage := perPage,
    totalResults := totalResults,
    totalPages := if 0 < totalResults then (totalResults + perPage - 1) / perPage else 0 }

/-- The seven-result collection of the spec's pagination example:
distinct ids, no text, no dates. -/
def sevenResults : List PRes :=
  (List.range 7).map (fun i => { docId := i, title := [], text := [], date := none })

/-- C1: with no embedding model supplied, the semantic strategy's execute
produces exactly the `(document, score)` pairs of the ranked strategy's
execute whose score is at least the configured similarity threshold, and
excludes every pair scoring below it. -/
theorem semanticExecute_eq_rankedExecute_filter (docs : List EDoc) (q : List Char) (θ : ℚ) :
    semanticExecute docs q θ =
      (rankedExecute docs q).filter (fun p => decide (θ ≤ p.2)) ∧
    ∀ p ∈ rankedExecute docs q, p.2 < θ → p ∉ semanticExecute docs q θ := by
  have heq : semanticExecute docs q θ =
      (rankedExecute docs q).filter (fun p => decide (θ ≤ p.2)) := by
    unfold semanticExecute rankedExecute semantic_search
    by_cases h : (docTexts docs).isEmpty
    · simp [h]
    · rw [if_neg h, if_neg h, List.filter_filter]
      exact List.filter_congr (fun x _ => Bool.and_comm _ _)
  refine ⟨heq, ?_⟩
  intro p _ hlt hmem
  rw [heq] at hmem
  have h2 := (List.mem_filter.mp hmem).2
  simp only [decide_eq_true_eq] at h2
  exact absurd h2 (not_le.mpr hlt)

/-- Membership is preserved by `insertDescBy`. -/
theorem mem_insertDescBy {α β : Type*} [LinearOrder β] (key : α → β) (x a : α) :
    ∀ l : List α, (a ∈ insertDescBy key x l ↔ a = x ∨ a ∈ l)
  | [] => by simp [insertDescBy]
  | y :: ys => by
    unfold insertDescBy
    by_cases h : key y ≤ key x
    · simp [h]
    · simp only [h, if_false, List.mem_cons, mem_insertDescBy key x a ys]
      tauto

/-- Membership is preserved by `sortDescBy`. -/
theorem mem_sortDescBy {α β : Type*} [LinearOrder β] (key : α → β) (a : α) :
    ∀ l : List α, (a ∈ sortDescBy key l ↔ a ∈ l)
  | [] => by simp [sortDescBy]
  | x :: xs => by
    unfold sortDescBy
    rw [mem_insertDescBy, mem_sortDescBy key a xs, List.mem_cons]

/-- `insertDescBy` grows the length by one. -/
theorem length_insertDescBy {α β : Type*} [LinearOrder β] (key : α → β) (x : α) :
    ∀ l : List α, (insertDescBy key x l).length = l.length + 1
  | [] => rfl
  | y :: ys => by
    unfold insertDescBy
    by_cases h : key y ≤ key x
    · simp [h]
    · simp [h, length_insertDescBy key x ys]

/-- `sortDescBy` preserves the length. -/
theorem length_sortDescBy {α β : Type*} [LinearOrder β] (key : α → β) :
    ∀ l : List α, (sortDescBy key l).length = l.length
  | [] => rfl
  | x :: xs => by
    unfold sortDescBy
    rw [length_insertDescBy, length_sortDescBy key xs, List.length_cons]

/-- Inserting into a list with non-increasing keys keeps keys
non-increasing. -/
theorem pairwise_key_insertDescBy {α β : Type*} [LinearOrder β] (key : α → β) (x : α) :
    ∀ l : List α, l.Pairwise (fun a b => key b ≤ key a) →
      (insertDescBy key x l).Pairwise (fun a b => key b ≤ key a)
  | [], _ => by simp [insertDescBy]
  | y :: ys, hl => by
    unfold insertDescBy
    by_cases h : key y ≤ key x
    · rw [if_pos h, List.pairwise_cons]
      refine ⟨?_, hl⟩
      intro z hz
      rcases List.mem_cons.mp hz with rfl | hz'
      · exact h
      · exact le_trans ((List.pairwise_cons.mp hl).1 z hz') h
    · rw [if_neg h, List.pairwise_cons]
      refine ⟨?_, pairwise_key_insertDescBy key x ys (List.pairwise_cons.mp hl).2⟩
      intro w hw
      rcases (mem_insertDescBy key x w ys).mp hw with rfl | hw'
      · exact le_of_lt (not_le.mp h)
      · exact (List.pairwise_cons.mp hl).1 w hw'

/-- The output of `sortDescBy` has non-increasing keys. -/
theorem pairwise_key_sortDescBy {α β : Type*} [LinearOrder β] (key : α → β) :
    ∀ l : List α, (sortDescBy key l).Pairwise (fun a b => key b ≤ key a)
  | [] => by simp [sortDescBy]
  | x :: xs => by
    unfold sortDescBy
    exact pairwise_key_insertDescBy key x _ (pairwise_key_sortDescBy key xs)

/-- Stability of the insertion step: inserting a pair whose index is
smaller than every index in the list preserves `rankRel` ordering. -/
theorem insertDescBy_rank_stable (x : ℕ × ℚ) :
    ∀ l : List (ℕ × ℚ), l.Pairwise rankRel → (∀ y ∈ l, x.1 < y.1) →
      (insertDescBy Prod.snd x l).Pairwise rankRel
  | [], _, _ => by simp [insertDescBy]
  | y :: ys, hl, hx => by
    unfold insertDescBy
    by_cases h : y.2 ≤ x.2
    · rw [if_pos h, List.pairwise_cons]
      refine ⟨?_, hl⟩
      intro z hz
      rcases List.mem_cons.mp hz with rfl | hz'
      · rcases lt_or_eq_of_le h with hlt | heq
        · exact Or.inl hlt
        · exact Or.inr ⟨heq.symm, hx z (List.mem_cons_self _ _)⟩
      · have hyz := (List.pairwise_cons.mp hl).1 z hz'
        have hz2 : z.2 ≤ y.2 := by
          rcases hyz with h1 | ⟨h1, _⟩
          · exact le_of_lt h1
          · exact le_of_eq h1.symm
        rcases lt_or_eq_of_le (le_trans hz2 h) with hlt | heq
        · exact Or.inl hlt
        · exact Or.inr ⟨heq.symm, hx z (List.mem_cons_of_mem _ hz')⟩
    · rw [if_neg h, List.pairwise_cons]
      constructor
      · intro w hw
        rcases (mem_insertDescBy Prod.snd x w ys).mp hw with rfl | hw'
        · exact Or.inl (not_le.mp h)
        · exact (List.pairwise_cons.mp hl).1 w hw'
      · exact insertDescBy_rank_stable x ys (List.pairwise_cons.mp hl).2
          (fun z hz => hx z (List.mem_cons_of_mem _ hz))

/-- Stable sort of a list with strictly increasing indices is ordered by
`rankRel`: descending scores, ties in original index order. -/
theorem sortDescBy_rank_stable :
    ∀ l : List (ℕ × ℚ), l.Pairwise (fun a b => a.1 < b.1) →
      (sortDescBy Prod.snd l).Pairwise rankRel
  | [], _ => by simp [sortDescBy]
  | x :: xs, h => by
    unfold sortDescBy
    refine insertDescBy_rank_stable x _
      (sortDescBy_rank_stable xs (List.pairwise_cons.mp h).2) ?_
    intro y hy
    exact (List.pairwise_cons.mp h).1 y ((mem_sortDescBy Prod.snd y xs).mp hy)

/-- Distinct tokens occupy disjoint positions of a token list, so the sum
of their counts is at most the list's length. -/
theorem sum_count_le_length (S : Finset (List Char)) :
    ∀ d : List (List Char), (∑ t in S, d.count t) ≤ d.length
  | [] => by simp
  | a :: d => by
    have hcons : ∀ t : List Char, (a :: d).count t = d.count t + if t = a then 1 else 0 := by
      intro t
      by_cases h : t = a
      · subst h
        simp [List.count_cons]
      · simp [List.count_cons, h, beq_iff_eq]
    calc (∑ t in S, (a :: d).count t)
        = (∑ t in S, d.count t) + ∑ t in S, (if t = a then 1 else 0) := by
          rw [← Finset.sum_add_distrib]
          exact Finset.sum_congr rfl (fun t _ => hcons t)
      _ ≤ d.length + 1 := by
          have h1 : (∑ t in S, (if t = a then 1 else 0)) ≤ 1 := by
            rw [Finset.sum_ite_eq' S a (fun _ => 1)]
            split <;> omega
          have h2 := sum_count_le_length S d
          omega
      _ = (a :: d).length := by simp

/-- Every term-frequency score lies in the unit interval. -/
theorem scoreFor_bounds (q d : List Char) : 0 ≤ scoreFor q d ∧ scoreFor q d ≤ 1 := by
  unfold scoreFor
  simp only
  by_cases h : (tokensOf d).isEmpty
  · rw [if_pos h]
    have hnil : tokensOf d = [] := List.isEmpty_iff.mp h
    rw [hnil]
    simp
  · rw [if_neg h]
    have hnil : tokensOf d ≠ [] := fun hn => h (by rw [hn]; rfl)
    have hlen : 0 < (tokensOf d).length := List.length_pos.mpr hnil
    constructor
    · exact div_nonneg (Nat.cast_nonneg _) (Nat.cast_nonneg _)
    · rw [div_le_one (by exact_mod_cast hlen)]
      exact_mod_cast sum_count_le_length (tokensOf q).toFinset (tokensOf d)

/-- A pair is in the `scores` list iff its index is a valid document
position and its score is that document's `scoreFor`. -/
theorem mem_scoresList (q : List Char) (docs : List (List Char)) (p : ℕ × ℚ) :
    p ∈ scoresList q docs ↔
      ∃ h : p.1 < docs.length, p.2 = scoreFor q (docs.get ⟨p.1, h⟩) := by
  unfold scoresList
  rw [List.mem_map]
  constructor
  · rintro ⟨⟨i, d⟩, hmem, rfl⟩
    have hsome := List.mk_mem_enum_iff_getElem?.mp hmem
    obtain ⟨hi, hd⟩ := List.getElem?_eq_some.mp hsome
    exact ⟨hi, by simp [← hd]⟩
  · rintro ⟨h, hscore⟩
    refine ⟨(p.1, docs.get ⟨p.1, h⟩), ?_, ?_⟩
    · rw [List.mk_mem_enum_iff_getElem?]
      exact List.getElem?_eq_some.mpr ⟨h, rfl⟩
    · cases p
      simp only at hscore ⊢
      rw [← hscore]

/-- The indices of `enumFrom` are strictly increasing. -/
theorem pairwise_fst_enumFrom {α : Type*} :
    ∀ (n : ℕ) (l : List α), (l.enumFrom n).Pairwise (fun a b => a.1 < b.1)
  | _, [] => by simp
  | n, x :: xs => by
    rw [List.enumFrom_cons, List.pairwise_cons]
    refine ⟨?_, pairwise_fst_enumFrom (n + 1) xs⟩
    intro b hb
    have := (List.mem_enumFrom hb).1
    omega

/-- The indices of the `scores` list are strictly increasing (documents
are scored in `enumerate` order). -/
theorem pairwise_fst_scoresList (q : List Char) (docs : List (List Char)) :
    (scoresList q docs).Pairwise (fun a b => a.1 < b.1) :=
  (pairwise_fst_enumFrom 0 docs).map _ (fun _ _ h => h)

/-- C10: every score returned by the ranked strategy (hence by the
semantic fallback) lies in the closed interval `[0, 1]`: the raw sum over
distinct query terms never exceeds the token count it is divided by. -/
theorem rank_documents_scores_unit_interval (q : List Char) (docs : List (List Char))
    (topK : ℕ) : ∀ p ∈ rank_documents q docs topK, 0 ≤ p.2 ∧ p.2 ≤ 1 := by
  intro p hp
  have h1 : p ∈ sortDescBy Prod.snd (scoresList q docs) := List.mem_of_mem_take hp
  have h2 := (mem_sortDescBy Prod.snd p _).mp h1
  obtain ⟨h, hs⟩ := (mem_scoresList q docs p).mp h2
  rw [hs]
  exact scoreFor_bounds q _

/-- C10 witness: a concrete pair returned by `rank_documents` satisfies
the bounds. -/
theorem rank_documents_scores_unit_interval_witness :
    0 ≤ ((0, 0) : ℕ × ℚ).2 ∧ ((0, 0) : ℕ × ℚ).2 ≤ 1 :=
  rank_documents_scores_unit_interval ['a'] [[]] 5 (0, 0) (by decide)

/-- C3: for every document, the ranked strategy's score is the sum over
distinct query terms of the term's whole-token count in the document,
divided by the document's token count; a document with zero tokens
scores `0` instead of raising a division error; and the returned list
covers every document, sorted by score descending with ties broken by
original document order (first-seen wins). -/
theorem rank_documents_formula_and_order (q : List Char) (docs : List (List Char)) :
    (∀ p ∈ rank_documents q docs docs.length,
      ∃ h : p.1 < docs.length,
        p.2 = (if (tokensOf (docs.get ⟨p.1, h⟩)).isEmpty
          then ((∑ t in (tokensOf q).toFinset,
            (tokensOf (docs.get ⟨p.1, h⟩)).count t : ℕ) : ℚ)
          else ((∑ t in (tokensOf q).toFinset,
            (tokensOf (docs.get ⟨p.1, h⟩)).count t : ℕ) : ℚ) /
              (tokensOf (docs.get ⟨p.1, h⟩)).length) ∧
        (tokensOf (docs.get ⟨p.1, h⟩) = [] → p.2 = 0)) ∧
    (rank_documents q docs docs.length).length = docs.length ∧
    (rank_documents q docs docs.length).Pairwise
      (fun a b => b.2 < a.2 ∨ (a.2 = b.2 ∧ a.1 < b.1)) := by
  have hlen : (sortDescBy Prod.snd (scoresList q docs)).length = docs.length := by
    rw [length_sortDescBy]
    unfold scoresList
    rw [List.length_map, List.enum_length]
  refine ⟨?_, ?_, ?_⟩
  · intro p hp
    have h1 : p ∈ sortDescBy Prod.snd (scoresList q docs) := List.mem_of_mem_take hp
    have h2 := (mem_sortDescBy Prod.snd p _).mp h1
    obtain ⟨h, hs⟩ := (mem_scoresList q docs p).mp h2
    refine ⟨h, ?_, ?_⟩
    · rw [hs]
      rfl
    · intro hnil
      rw [hs]
      unfold scoreFor
      simp only [hnil]
      simp
  · unfold rank_documents
    rw [← hlen, List.take_length]
  · unfold rank_documents
    have hsorted := sortDescBy_rank_stable (scoresList q docs) (pairwise_fst_scoresList q docs)
    exact List.Pairwise.sublist (List.take_sublist _ _) hsorted

/-- Membership in a posting set of the inverted index. -/
theorem mem_build_inverted_index (docs : List (List Char)) (t : List Char) (i : ℕ) :
    i ∈ build_inverted_index docs t ↔ i < docs.length ∧ t ∈ tokensOf (docs.getD i []) := by
  unfold build_inverted_index
  rw [Finset.mem_filter, Finset.mem_range]

/-- Membership in the left fold of intersections used by
`boolean_retrieval`. -/
theorem mem_foldl_inter (index : List Char → Finset ℕ) (i : ℕ) :
    ∀ (rest : List (List Char)) (init : Finset ℕ),
      (i ∈ rest.foldl (fun acc tk => acc ∩ index tk) init ↔
        i ∈ init ∧ ∀ t ∈ rest, i ∈ index t)
  | [], init => by simp
  | t :: rest, init => by
    rw [List.foldl_cons, mem_foldl_inter index i rest (init ∩ index t)]
    rw [Finset.mem_inter]
    constructor
    · rintro ⟨⟨h1, h2⟩, h3⟩
      refine ⟨h1, ?_⟩
      intro t2 ht2
      rcases List.mem_cons.mp ht2 with rfl | ht2'
      · exact h2
      · exact h3 t2 ht2'
    · rintro ⟨h1, h2⟩
      exact ⟨⟨h1, h2 t (List.mem_cons_self _ _)⟩,
        fun t2 ht2 => h2 t2 (List.mem_cons_of_mem _ ht2)⟩

/-- A document position is retrieved iff the query has tokens and the
document's token set contains every query token. -/
theorem mem_boolean_retrieval (q : List Char) (docs : List (List Char)) (i : ℕ) :
    i ∈ boolean_retrieval q (build_inverted_index docs) ↔
      tokensOf q ≠ [] ∧ i < docs.length ∧
        ∀ t ∈ tokensOf q, t ∈ tokensOf (docs.getD i []) := by
  unfold boolean_retrieval
  cases htoks : tokensOf q with
  | nil => simp
  | cons t rest =>
    rw [mem_foldl_inter, mem_build_inverted_index]
    constructor
    · rintro ⟨⟨h1, h2⟩, h3⟩
      refine ⟨by simp, h1, ?_⟩
      intro t2 ht2
      rcases List.mem_cons.mp ht2 with rfl | ht2'
      · exact h2
      · exact ((mem_build_inverted_index docs t2 i).mp (h3 t2 ht2')).2
    · rintro ⟨_, h1, h2⟩
      refine ⟨⟨h1, h2 t (List.mem_cons_self _ _)⟩, ?_⟩
      intro t2 ht2
      rw [mem_build_inverted_index]
      exact ⟨h1, h2 t2 (List.mem_cons_of_mem _ ht2)⟩

/-- C2: boolean execute returns exactly the documents whose token set
contains every normalized query term, each with score `1.0`; an empty
term set yields the empty result; a term absent from every document
gives an empty posting set and hence an empty intersection, without
raising. -/
theorem boolean_retrieval_and_execute_semantics (q : List Char) :
    (∀ documents : List (List Char),
      (tokensOf q = [] → boolean_retrieval q (build_inverted_index documents) = ∅) ∧
      (∀ i, i ∈ boolean_retrieval q (build_inverted_index documents) ↔
        (tokensOf q ≠ [] ∧ i < documents.length ∧
          ∀ t ∈ tokensOf q, t ∈ tokensOf (documents.getD i []))) ∧
      (∀ t ∈ tokensOf q,
        (∀ i < documents.length, t ∉ tokensOf (documents.getD i [])) →
          boolean_retrieval q (build_inverted_index documents) = ∅)) ∧
    (∀ (docs : List EDoc) (i : ℕ) (s : ℚ),
      (i, s) ∈ boolExecute docs q ↔
        (i ∈ boolean_retrieval q (build_inverted_index (docTexts docs)) ∧ s = 1)) := by
  constructor
  · intro documents
    refine ⟨?_, mem_boolean_retrieval q documents, ?_⟩
    · intro h
      unfold boolean_retrieval
      rw [h]
    · intro t ht hnone
      rw [Finset.eq_empty_iff_forall_not_mem]
      intro i hi
      obtain ⟨_, hlt, hall⟩ := (mem_boolean_retrieval q documents i).mp hi
      exact hnone i hlt (hall t ht)
  · intro docs i s
    have hlen : (docTexts docs).length = docs.length := by
      unfold docTexts
      rw [List.length_map]
    unfold boolExecute
    by_cases hany : (docTexts docs).any (fun t => !(tokensOf t).isEmpty)
    · rw [if_pos hany]
      constructor
      · intro h
        obtain ⟨j, hj, hpair⟩ := List.mem_map.mp h
        obtain ⟨hj1, hj2⟩ := Prod.mk.injEq .. ▸ hpair
        obtain ⟨_, hdec⟩ := List.mem_filter.mp hj
        rw [decide_eq_true_eq] at hdec
        exact ⟨hj1 ▸ hdec, hj2.symm⟩
      · rintro ⟨hret, rfl⟩
        refine List.mem_map.mpr ⟨i, List.mem_filter.mpr ⟨?_, ?_⟩, rfl⟩
        · rw [List.mem_range, ← hlen]
          exact ((mem_boolean_retrieval q (docTexts docs) i).mp hret).2.1
        · rw [decide_eq_true_eq]
          exact hret
    · rw [if_neg hany]
      simp only [List.not_mem_nil, false_iff]
      rintro ⟨hret, _⟩
      obtain ⟨hne, hlt, hall⟩ := (mem_boolean_retrieval q (docTexts docs) i).mp hret
      obtain ⟨t0, ht0⟩ := List.exists_mem_of_ne_nil _ hne
      have hmem := hall t0 ht0
      have hdocmem : (docTexts docs).getD i [] ∈ docTexts docs := by
        rw [List.getD_eq_getElem (docTexts docs) [] hlt]
        exact List.getElem_mem hlt
      apply hany
      refine List.any_eq_true.mpr ⟨(docTexts docs).getD i [], hdocmem, ?_⟩
      rw [Bool.not_eq_true']
      rw [← Bool.not_eq_true]
      intro hemp
      rw [List.isEmpty_iff.mp hemp] at hmem
      exact List.not_mem_nil t0 hmem

/-- C8: setting a similarity threshold outside `[0, 1]` fails with a
validation error and produces no new state (the raise happens before the
assignment, so the stored threshold is unchanged); a value inside the
range succeeds and the stored threshold becomes that value. -/
theorem set_similarity_threshold_validates (s : SemanticEngineState) (t : ℚ) :
    ((t < 0 ∨ 1 < t) →
      set_similarity_threshold s t =
        Except.error "Similarity threshold must be between 0.0 and 1.0" ∧
      ∀ s2, ¬ set_similarity_threshold s t = Except.ok s2) ∧
    (0 ≤ t → t ≤ 1 →
      set_similarity_threshold s t =
        Except.ok { similarityThreshold := t, cache := [] }) := by
  unfold set_similarity_threshold
  by_cases h : 0 ≤ t ∧ t ≤ 1
  · rw [if_neg (not_not_intro h)]
    constructor
    · intro hout
      rcases hout with h1 | h1
      · exact absurd h.1 (not_le.mpr h1)
      · exact absurd h.2 (not_le.mpr h1)
    · intro _ _
      rfl
  · rw [if_pos h]
    refine ⟨fun _ => ⟨rfl, fun s2 hok => Except.noConfusion hok⟩, fun h0 h1 => absurd ⟨h0, h1⟩ h⟩

/-- C8 witness: the out-of-range value `2` errors; the in-range value `1`
is stored. -/
theorem set_similarity_threshold_validates_witness :
    set_similarity_threshold { similarityThreshold := 1, cache := [] } 2 =
      Except.error "Similarity threshold must be between 0.0 and 1.0" ∧
    set_similarity_threshold { similarityThreshold := 0, cache := [] } 1 =
      Except.ok { similarityThreshold := 1, cache := [] } :=
  ⟨((set_similarity_threshold_validates { similarityThreshold := 1, cache := [] } 2).1
      (Or.inr (by norm_num))).1,
    (set_similarity_threshold_validates { similarityThreshold := 0, cache := [] } 1).2
      (by norm_num) (le_refl 1)⟩

/-- C5: evaluation of the boolean engine at a concrete input exhibiting
the stale-index bug.  After `add_document`, `search`, `add_document`,
`search`, the second search still answers from the index built before
the second document was added: it returns only document `0`, although
document `1` contains the query token (a fresh engine over both
documents returns both).  `add_document` resets `_is_initialized`, but
`BooleanSearchEngine.execute_search` consults `_index_built`, which is
never reset. -/
theorem boolean_engine_stale_index_eval :
    (execute_search
      (add_document
        (execute_search (add_document BoolEngine.init ⟨"a".data, "cat".data⟩) "cat".data).2
        ⟨"b".data, "cat".data⟩)
      "cat".data).1 = [(0, 1)] ∧
    "cat".data ∈ tokensOf (textContent ⟨"b".data, "cat".data⟩) ∧
    (execute_search
      (add_document (add_document BoolEngine.init ⟨"a".data, "cat".data⟩)
        ⟨"b".data, "cat".data⟩)
      "cat".data).1 = [(0, 1), (1, 1)] := by
  refine ⟨?_, ?_, ?_⟩ <;> decide

/-- The semantic engine's execute is the ranked engine's execute
filtered at the similarity threshold (shared helper). -/
theorem semanticExecute_as_filter (docs : List EDoc) (q : List Char) (θ : ℚ) :
    semanticExecute docs q θ =
      (rankedExecute docs q).filter (fun p => decide (θ ≤ p.2)) := by
  unfold semanticExecute rankedExecute semantic_search
  by_cases h : (docTexts docs).isEmpty
  · simp [h]
  · rw [if_neg h, if_neg h, List.filter_filter]
    exact List.filter_congr (fun x _ => Bool.and_comm _ _)

/-- A query with no tokens gives every document the raw score `0`. -/
theorem scoreFor_empty_query (d : List Char) : scoreFor [] d = 0 := by
  unfold scoreFor
  simp only
  have hq : tokensOf ([] : List Char) = [] := rfl
  rw [hq]
  simp [zero_div]

/-- Stable sorting a list whose keys are all equal changes nothing. -/
theorem sortDescBy_of_const_key {α β : Type*} [LinearOrder β] (key : α → β) (c : β) :
    ∀ l : List α, (∀ p ∈ l, key p = c) → sortDescBy key l = l
  | [], _ => rfl
  | x :: xs, h => by
    unfold sortDescBy
    rw [sortDescBy_of_const_key key c xs (fun p hp => h p (List.mem_cons_of_mem _ hp))]
    cases xs with
    | nil => rfl
    | cons y ys =>
      unfold insertDescBy
      rw [if_pos]
      rw [h y (List.mem_cons_of_mem _ (List.mem_cons_self _ _)),
        h x (List.mem_cons_self _ _)]

/-- On a query with no tokens, the ranked engine returns every document,
in original order, with score `0`. -/
theorem rankedExecute_empty_query (docs : List EDoc) :
    rankedExecute docs [] = (List.range docs.length).map (fun i => (i, (0 : ℚ))) := by
  unfold rankedExecute
  by_cases hemp : (docTexts docs).isEmpty
  · rw [if_pos hemp]
    have hnil : docs = [] := by
      rcases docs with _ | ⟨d, ds⟩
      · rfl
      · exact absurd hemp (by simp [docTexts])
    subst hnil
    rfl
  · rw [if_neg hemp]
    have hlen : (docTexts docs).length = docs.length := by
      unfold docTexts
      rw [List.length_map]
    have hscores : scoresList [] (docTexts docs) =
        (docTexts docs).enum.map (fun p => (p.1, (0 : ℚ))) := by
      unfold scoresList
      exact List.map_congr_left (fun p _ => by rw [scoreFor_empty_query])
    have hconst : ∀ p ∈ scoresList [] (docTexts docs), Prod.snd p = (0 : ℚ) := by
      intro p hp
      rw [hscores] at hp
      obtain ⟨x, _, rfl⟩ := List.mem_map.mp hp
      rfl
    unfold rank_documents
    rw [sortDescBy_of_const_key Prod.snd 0 _ hconst, hscores,
      List.take_of_length_le (by rw [List.length_map, List.enum_length])]
    rw [List.filter_eq_self.mpr ?_]
    · rw [show (fun p : ℕ × List Char => (p.1, (0 : ℚ))) =
          ((fun i => (i, (0 : ℚ))) ∘ Prod.fst) from rfl]
      rw [← List.map_map, List.enum_map_fst, hlen]
    · intro p hp
      obtain ⟨x, hx, rfl⟩ := List.mem_map.mp hp
      have hxlt := (List.mem_enumFrom hx).2.1
      simp only [decide_eq_true_eq]
      omega

/-- C4 (amended): on a query that normalizes to the empty string, no
strategy raises: boolean execute returns the empty list; ranked execute
returns every document with score `0` in original order; semantic
execute returns the empty list whenever the threshold is positive, and
all the zero-scored documents at threshold `0`. -/
theorem empty_normalized_query_results (docs : List EDoc) (raw : String) (θ : ℚ)
    (h : normalize_query raw = "") :
    boolExecute docs (normalize_query raw).data = [] ∧
    rankedExecute docs (normalize_query raw).data =
      (List.range docs.length).map (fun i => (i, (0 : ℚ))) ∧
    (0 < θ → semanticExecute docs (normalize_query raw).data θ = []) ∧
    semanticExecute docs (normalize_query raw).data 0 =
      (List.range docs.length).map (fun i => (i, (0 : ℚ))) := by
  have hdata : (normalize_query raw).data = [] := by
    rw [h]
  rw [hdata]
  refine ⟨?_, rankedExecute_empty_query docs, ?_, ?_⟩
  · unfold boolExecute
    by_cases hany : (docTexts docs).any (fun t => !(tokensOf t).isEmpty)
    · rw [if_pos hany]
      have hfil : (List.range docs.length).filter
          (fun i => decide (i ∈ boolean_retrieval []
            (build_inverted_index (docTexts docs)))) = [] := by
        rw [List.filter_eq_nil_iff]
        intro i _
        have hbr : boolean_retrieval [] (build_inverted_index (docTexts docs)) = ∅ := rfl
        simp [hbr]
      rw [hfil]
      rfl
    · rw [if_neg hany]
  · intro hθ
    rw [semanticExecute_as_filter, rankedExecute_empty_query]
    rw [List.filter_eq_nil_iff]
    intro p hp
    obtain ⟨i, _, rfl⟩ := List.mem_map.mp hp
    simp only [decide_eq_true_eq]
    intro hle
    exact absurd (le_antisymm hle (le_of_lt hθ)) (ne_of_gt hθ)
  · rw [semanticExecute_as_filter, rankedExecute_empty_query]
    rw [List.filter_eq_self]
    intro p hp
    obtain ⟨i, _, rfl⟩ := List.mem_map.mp hp
    simp

/-- C4 counterexample: for the one-document collection and the query
`" "` (which normalizes to the empty string), the ranked strategy's
execute returns the document with score `0`, not the empty result list
the claim asserts for all three strategies. -/
theorem rankedExecute_empty_query_nonempty_counterexample :
    normalize_query " " = "" ∧
    rankedExecute [⟨[], []⟩] (normalize_query " ").data = [(0, 0)] ∧
    rankedExecute [⟨[], []⟩] (normalize_query " ").data ≠ [] := by
  refine ⟨?_, ?_, ?_⟩ <;> decide

/-- C4 witness: the amended statement applied at a concrete collection
and query. -/
theorem empty_normalized_query_results_witness :
    normalize_query " " = "" ∧
    boolExecute [⟨['x'], []⟩] (normalize_query " ").data = [] :=
  ⟨by decide, (empty_normalized_query_results [⟨['x'], []⟩] " " 1 (by decide)).1⟩

/-- C7: pagination returns the slice `[(p-1)*s, (p-1)*s + s)` of the
sorted filtered list, or the empty list when the start index reaches the
filtered count; `total_results` is the filtered count and `total_pages`
is `ceil(total/perPage)` (computed as `(total + perPage - 1) / perPage`),
with `0` pages when the total is `0`. -/
theorem filter_sort_paginate_pagination (results : List PRes) (terms : List (List Char))
    (page perPage : ℕ) (sortBy : String) (minScore : ℚ)
    (hp : 1 ≤ page) (hs : 1 ≤ perPage) :
    (filter_sort_paginate_results results terms page perPage sortBy minScore).results =
      (if (sortStep sortBy (scoreFilterStep results terms minScore)).length ≤
          (page - 1) * perPage then []
        else ((sortStep sortBy (scoreFilterStep results terms minScore)).drop
          ((page - 1) * perPage)).take perPage) ∧
    (filter_sort_paginate_results results terms page perPage sortBy minScore).totalResults =
      (sortStep sortBy (scoreFilterStep results terms minScore)).length ∧
    (filter_sort_paginate_results results terms page perPage sortBy minScore).totalPages =
      ((sortStep sortBy (scoreFilterStep results terms minScore)).length + perPage - 1)
        / perPage ∧
    ((sortStep sortBy (scoreFilterStep results terms minScore)).length = 0 →
      (filter_sort_paginate_results results terms page perPage sortBy minScore).totalPages
        = 0) := by
  unfold filter_sort_paginate_results
  simp only
  refine ⟨trivial, trivial, ?_, ?_⟩
  · by_cases h0 : 0 < (sortStep sortBy (scoreFilterStep results terms minScore)).length
    · rw [if_pos h0]
    · rw [if_neg h0]
      have hz : (sortStep sortBy (scoreFilterStep results terms minScore)).length = 0 := by
        omega
      rw [hz]
      rw [Nat.zero_add]
      exact (Nat.div_eq_of_lt (by omega)).symm
  · intro hz
    rw [hz]
    simp

/-- C7 witness: the spec's pagination example: seven filtered results,
`page=2, perPage=3` yields items 3, 4, 5 (0-indexed) and 3 total pages;
`page=4` yields an empty page with the same totals. -/
theorem filter_sort_paginate_pagination_witness :
    (filter_sort_paginate_results sevenResults [] 2 3 "score" 0).results.map
      (fun p => p.1.docId) = [3, 4, 5] ∧
    (filter_sort_paginate_results sevenResults [] 2 3 "score" 0).totalResults = 7 ∧
    (filter_sort_paginate_results sevenResults [] 2 3 "score" 0).totalPages = 3 ∧
    (filter_sort_paginate_results sevenResults [] 4 3 "score" 0).results = [] ∧
    (filter_sort_paginate_results sevenResults [] 4 3 "score" 0).totalResults = 7 ∧
    (filter_sort_paginate_results sevenResults [] 4 3 "score" 0).totalPages = 3 := by
  have h2 := filter_sort_paginate_pagination sevenResults [] 2 3 "score" 0
    (by decide) (by decide)
  have h4 := filter_sort_paginate_pagination sevenResults [] 4 3 "score" 0
    (by decide) (by decide)
  refine ⟨?_, ?_, ?_, ?_, ?_, ?_⟩
  · rw [h2.1]
    decide
  · rw [h2.2.1]
    decide
  · rw [h2.2.2.1]
    decide
  · rw [h4.1]
    decide
  · rw [h4.2.1]
    decide
  · rw [h4.2.2.1]
    decide

/-- C6 (amended): with sort key `date`, the surviving results are stably
sorted by date descending (a missing date sorting as the empty string)
whenever at least one surviving item carries a date — the source guards
the sort with `any(...)`, not `all(...)`; only when no surviving item
has a date is sorting skipped and the filtered order preserved. -/
theorem sortStep_date_behaviour (results : List PRes) (terms : List (List Char))
    (minScore : ℚ) :
    ((scoreFilterStep results terms minScore).any (fun p => p.1.date.isSome) = false →
      sortStep "date" (scoreFilterStep results terms minScore) =
        scoreFilterStep results terms minScore) ∧
    ((scoreFilterStep results terms minScore).any (fun p => p.1.date.isSome) = true →
      sortStep "date" (scoreFilterStep results terms minScore) =
        sortDescBy (fun p => p.1.date.getD []) (scoreFilterStep results terms minScore) ∧
      (sortStep "date" (scoreFilterStep results terms minScore)).Pairwise
        (fun a b => b.1.date.getD [] ≤ a.1.date.getD [])) := by
  constructor
  · intro hnone
    unfold sortStep
    rw [if_neg (by decide), if_neg ?_]
    rintro ⟨-, hany⟩
    rw [hnone] at hany
    exact Bool.false_ne_true hany
  · intro hsome
    have heq : sortStep "date" (scoreFilterStep results terms minScore) =
        sortDescBy (fun p => p.1.date.getD []) (scoreFilterStep results terms minScore) := by
      unfold sortStep
      rw [if_neg (by decide), if_pos ⟨rfl, hsome⟩]
    refine ⟨heq, ?_⟩
    rw [heq]
    exact pairwise_key_sortDescBy _ _

/-- C6 counterexample: two surviving results, the first without a date,
the second dated; the source sorts anyway (because `any(...)` holds) and
reverses the filtered order, where the claim requires the filtered order
to be preserved whenever any surviving item lacks a date. -/
theorem sortStep_date_any_counterexample :
    (scoreFilterStep [⟨0, [], [], none⟩, ⟨1, [], [], some ['2']⟩] [] 0).map
      (fun p => p.1.docId) = [0, 1] ∧
    (scoreFilterStep [⟨0, [], [], none⟩, ⟨1, [], [], some ['2']⟩] [] 0).any
      (fun p => p.1.date.isNone) = true ∧
    (filter_sort_paginate_results [⟨0, [], [], none⟩, ⟨1, [], [], some ['2']⟩] [] 1 10
      "date" 0).results.map (fun p => p.1.docId) = [1, 0] := by
  refine ⟨?_, ?_, ?_⟩ <;> decide

/-- Packing a valid codepoint and reading it back is the identity. -/
theorem toNat_ofNatAux (n : Nat) (h : n.isValidChar) : (Char.ofNatAux n h).toNat = n := rfl

/-- `Char.toLower` is idempotent: a lowered latin letter is no longer in
the upper-case range. -/
theorem toLower_toLower (c : Char) : c.toLower.toLower = c.toLower := by
  unfold Char.toLower
  by_cases h : c.toNat ≥ 65 ∧ c.toNat ≤ 90
  · rw [if_pos h]
    have hv : (c.toNat + 32).isValidChar := Or.inl (by omega)
    rw [Char.ofNat, dif_pos hv, toNat_ofNatAux]
    rw [if_neg (by omega)]
  · rw [if_neg h, if_neg h]

/-- Lowercasing twice is lowercasing once. -/
theorem clean_text_clean_text (l : List Char) : clean_text (clean_text l) = clean_text l := by
  unfold clean_text
  rw [List.map_map]
  exact List.map_congr_left (fun c _ => toLower_toLower c)

/-- `rep2` only keeps characters of the input. -/
theorem mem_rep2 : ∀ (l : List Char) (c : Char), c ∈ rep2 l → c ∈ l
  | [], c => by simp [rep2]
  | [c1], c => by simp [rep2]
  | c1 :: c2 :: rest, c => by
    unfold rep2
    by_cases h : c1 = ' ' ∧ c2 = ' '
    · rw [if_pos h]
      intro hc
      rcases List.mem_cons.mp hc with rfl | hc'
      · rw [h.1]
        exact List.mem_cons_self _ _
      · exact List.mem_cons_of_mem _ (List.mem_cons_of_mem _ (mem_rep2 rest c hc'))
    · rw [if_neg h]
      intro hc
      rcases List.mem_cons.mp hc with rfl | hc'
      · exact List.mem_cons_self _ _
      · exact List.mem_cons_of_mem _ (mem_rep2 (c2 :: rest) c hc')

/-- `rep2` preserves the first character. -/
theorem rep2_head? : ∀ l : List Char, (rep2 l).head? = l.head?
  | [] => rfl
  | [c1] => rfl
  | c1 :: c2 :: rest => by
    unfold rep2
    by_cases h : c1 = ' ' ∧ c2 = ' '
    · rw [if_pos h]
      simp [h.1]
    · rw [if_neg h]
      rfl

/-- `rep2` maps nonempty lists to nonempty lists. -/
theorem rep2_ne_nil (l : List Char) (hl : l ≠ []) : rep2 l ≠ [] := by
  intro hcontra
  have h1 := rep2_head? l
  rw [hcontra] at h1
  cases l with
  | nil => exact hl rfl
  | cons a as => simp at h1

/-- `rep2` preserves the last character. -/
theorem rep2_getLast? : ∀ l : List Char, (rep2 l).getLast? = l.getLast?
  | [] => rfl
  | [c1] => rfl
  | c1 :: c2 :: rest => by
    unfold rep2
    by_cases h : c1 = ' ' ∧ c2 = ' '
    · rw [if_pos h]
      cases rest with
      | nil =>
        show ([' '] : List Char).getLast? = _
        rw [List.getLast?_cons_cons]
        simp [h.2]
      | cons r rs =>
        obtain ⟨x, xs, hxx⟩ :=
          List.exists_cons_of_ne_nil (rep2_ne_nil (r :: rs) (by simp))
        calc (' ' :: rep2 (r :: rs)).getLast?
            = (rep2 (r :: rs)).getLast? := by rw [hxx, List.getLast?_cons_cons]
          _ = (r :: rs).getLast? := rep2_getLast? (r :: rs)
          _ = (c1 :: c2 :: r :: rs).getLast? := by
              rw [List.getLast?_cons_cons, List.getLast?_cons_cons]
    · rw [if_neg h]
      obtain ⟨x, xs, hxx⟩ :=
        List.exists_cons_of_ne_nil (rep2_ne_nil (c2 :: rest) (by simp))
      calc (c1 :: rep2 (c2 :: rest)).getLast?
          = (rep2 (c2 :: rest)).getLast? := by rw [hxx, List.getLast?_cons_cons]
        _ = (c2 :: rest).getLast? := rep2_getLast? (c2 :: rest)
        _ = (c1 :: c2 :: rest).getLast? := by rw [List.getLast?_cons_cons]

/-- `rep2` never lengthens the text. -/
theorem rep2_length_le : ∀ l : List Char, (rep2 l).length ≤ l.length
  | [] => le_refl _
  | [c1] => le_refl _
  | c1 :: c2 :: rest => by
    unfold rep2
    by_cases h : c1 = ' ' ∧ c2 = ' '
    · rw [if_pos h]
      have := rep2_length_le rest
      simp only [List.length_cons]
      omega
    · rw [if_neg h]
      have := rep2_length_le (c2 :: rest)
      simp only [List.length_cons] at this ⊢
      omega

/-- When a double space is present, `rep2` strictly shrinks the text. -/
theorem rep2_length_lt : ∀ l : List Char, hasDouble l = true → (rep2 l).length < l.length
  | [], h => by simp [hasDouble] at h
  | [c1], h => by simp [hasDouble] at h
  | c1 :: c2 :: rest, h => by
    unfold rep2
    by_cases hsp : c1 = ' ' ∧ c2 = ' '
    · rw [if_pos hsp]
      have := rep2_length_le rest
      simp only [List.length_cons]
      omega
    · rw [if_neg hsp]
      have hd : hasDouble (c2 :: rest) = true := by
        unfold hasDouble at h
        rcases Bool.or_eq_true_iff.mp h with h1 | h1
        · rw [Bool.and_eq_true, decide_eq_true_eq, decide_eq_true_eq] at h1
          exact absurd h1 hsp
        · exact h1
      have := rep2_length_lt (c2 :: rest) hd
      simp only [List.length_cons] at this ⊢
      omega

/-- With fuel at least the length of the text, the collapse loop
terminates with no double space left, exactly like the source's
`while '  ' in normalized` loop. -/
theorem collapseGo_no_double : ∀ (fuel : ℕ) (l : List Char), l.length ≤ fuel →
    hasDouble (collapseGo fuel l) = false
  | 0, l, h => by
    have hnil : l = [] := List.eq_nil_of_length_eq_zero (by omega)
    subst hnil
    rfl
  | fuel + 1, l, h => by
    unfold collapseGo
    by_cases hd : hasDouble l
    · rw [if_pos hd]
      have hlt := rep2_length_lt l hd
      exact collapseGo_no_double fuel (rep2 l) (by omega)
    · rw [if_neg hd]
      exact eq_false_of_ne_true hd

/-- A text with no double space is untouched by the collapse loop. -/
theorem collapseGo_of_no_double (fuel : ℕ) (l : List Char) (h : hasDouble l = false) :
    collapseGo fuel l = l := by
  cases fuel with
  | zero => rfl
  | succ f =>
    unfold collapseGo
    rw [if_neg (by rw [h]; exact Bool.false_ne_true)]

/-- The collapse loop only keeps characters of the input. -/
theorem mem_collapseGo : ∀ (fuel : ℕ) (l : List Char) (c : Char),
    c ∈ collapseGo fuel l → c ∈ l
  | 0, l, c => fun h => h
  | fuel + 1, l, c => by
    unfold collapseGo
    by_cases hd : hasDouble l
    · rw [if_pos hd]
      intro hc
      exact mem_rep2 l c (mem_collapseGo fuel (rep2 l) c hc)
    · rw [if_neg hd]
      exact fun h => h

/-- The collapse loop preserves the first character. -/
theorem collapseGo_head? : ∀ (fuel : ℕ) (l : List Char),
    (collapseGo fuel l).head? = l.head?
  | 0, l => rfl
  | fuel + 1, l => by
    unfold collapseGo
    by_cases hd : hasDouble l
    · rw [if_pos hd]
      rw [collapseGo_head? fuel (rep2 l)]
      exact rep2_head? l
    · rw [if_neg hd]

/-- The collapse loop preserves the last character. -/
theorem collapseGo_getLast? : ∀ (fuel : ℕ) (l : List Char),
    (collapseGo fuel l).getLast? = l.getLast?
  | 0, l => rfl
  | fuel + 1, l => by
    unfold collapseGo
    by_cases hd : hasDouble l
    · rw [if_pos hd]
      rw [collapseGo_getLast? fuel (rep2 l)]
      exact rep2_getLast? l
    · rw [if_neg hd]

/-- `pyStrip` only keeps characters of the input. -/
theorem mem_pyStrip (l : List Char) (c : Char) (h : c ∈ pyStrip l) : c ∈ l := by
  unfold pyStrip at h
  have h1 := List.mem_reverse.mp h
  have h2 := List.dropWhile_subset isPySpace h1
  have h3 := List.mem_reverse.mp h2
  exact List.dropWhile_subset isPySpace h3

/-- The first character of a stripped text is not whitespace. -/
theorem pyStrip_head?_not_space (l : List Char) (c : Char)
    (h : (pyStrip l).head? = some c) : isPySpace c = false := by
  unfold pyStrip at h
  rcases hrev : ((l.dropWhile isPySpace).reverse.dropWhile isPySpace).reverse with _ | ⟨x, xs⟩
  · rw [hrev] at h
    exact absurd h (by simp)
  · rw [hrev] at h
    simp only [List.head?_cons, Option.some.injEq] at h
    subst h
    -- x is the head of the reverse of the right-side dropWhile, i.e. the
    -- last character surviving the right strip; it is also a head of the
    -- left strip since reversal plus dropWhile keeps a prefix.
    have hx : x ∈ l.dropWhile isPySpace := by
      have h0 : x ∈ ((l.dropWhile isPySpace).reverse.dropWhile isPySpace).reverse := by
        rw [hrev]
        exact List.mem_cons_self _ _
      have h1 := List.mem_reverse.mp h0
      have h2 := List.dropWhile_subset isPySpace h1
      exact List.mem_reverse.mp h2
    -- the head of the stripped list is the head of the left dropWhile
    have hhead : (l.dropWhile isPySpace).head? = some x := by
      -- the right strip removes a suffix, so a nonempty result has the
      -- same head as the left strip
      rcases hL : l.dropWhile isPySpace with _ | ⟨y, ys⟩
      · rw [hL] at hx
        exact absurd hx (List.not_mem_nil x)
      · -- reverse of (dropWhile on reverse) is a prefix of y :: ys
        have hsuf : ((y :: ys).reverse.dropWhile isPySpace) <:+ (y :: ys).reverse :=
          List.dropWhile_suffix isPySpace
        have h5 : (((y :: ys).reverse.dropWhile isPySpace).reverse).reverse <:+
            (y :: ys).reverse := by
          rw [List.reverse_reverse]
          exact hsuf
        have hpre := List.reverse_suffix.mp h5
        rw [hL] at hrev
        obtain ⟨tail2, htail⟩ := hpre
        rw [hrev] at htail
        cases htail
        rfl
    have := List.head?_dropWhile_not isPySpace l
    rw [hhead] at this
    exact this

/-- The last character of a stripped text is not whitespace. -/
theorem pyStrip_getLast?_not_space (l : List Char) (c : Char)
    (h : (pyStrip l).getLast? = some c) : isPySpace c = false := by
  unfold pyStrip at h
  rw [List.getLast?_reverse] at h
  have := List.head?_dropWhile_not isPySpace (l.dropWhile isPySpace).reverse
  rw [h] at this
  exact this

/-- A text whose first and last characters are not whitespace is a fixed
point of `pyStrip`. -/
theorem pyStrip_eq_self (l : List Char)
    (hhead : ∀ c, l.head? = some c → isPySpace c = false)
    (hlast : ∀ c, l.getLast? = some c → isPySpace c = false) :
    pyStrip l = l := by
  unfold pyStrip
  have h1 : l.dropWhile isPySpace = l := by
    cases l with
    | nil => rfl
    | cons a as =>
      rw [List.dropWhile_cons_of_neg]
      rw [hhead a rfl]
      exact Bool.false_ne_true
  rw [h1]
  have h2 : l.reverse.dropWhile isPySpace = l.reverse := by
    cases hr : l.reverse with
    | nil => rfl
    | cons a as =>
      rw [List.dropWhile_cons_of_neg]
      have ha : l.getLast? = some a := by
        rw [← List.head?_reverse, hr]
        rfl
      rw [hlast a ha]
      exact Bool.false_ne_true
  rw [h2]
  exact List.reverse_reverse l

/-- `normalizeChars` is idempotent: its output is already lowercase, has
no leading or trailing whitespace, and contains no double space, so a
second pass changes nothing. -/
theorem normalizeChars_idem (l : List Char) :
    normalizeChars (normalizeChars l) = normalizeChars l := by
  set y := normalizeChars l with hy
  have hlower : clean_text y = y := by
    unfold clean_text
    have hfix : ∀ c ∈ y, Char.toLower c = c := by
      intro c hc
      rw [hy] at hc
      unfold normalizeChars collapseSpaces at hc
      have h1 := mem_collapseGo _ _ c hc
      have h2 := mem_pyStrip _ c h1
      unfold clean_text at h2
      obtain ⟨d, _, rfl⟩ := List.mem_map.mp h2
      exact toLower_toLower d
    calc y.map Char.toLower = y.map id := List.map_congr_left hfix
      _ = y := List.map_id y
  have hstrip : pyStrip y = y := by
    apply pyStrip_eq_self
    · intro c hc
      rw [hy] at hc
      unfold normalizeChars collapseSpaces at hc
      rw [collapseGo_head?] at hc
      exact pyStrip_head?_not_space _ c hc
    · intro c hc
      rw [hy] at hc
      unfold normalizeChars collapseSpaces at hc
      rw [collapseGo_getLast?] at hc
      exact pyStrip_getLast?_not_space _ c hc
  have hnd : hasDouble y = false := by
    rw [hy]
    unfold normalizeChars collapseSpaces
    exact collapseGo_no_double _ _ (le_refl _)
  calc normalizeChars y = collapseSpaces (pyStrip (clean_text y)) := rfl
    _ = collapseSpaces (pyStrip y) := by rw [hlower]
    _ = collapseSpaces y := by rw [hstrip]
    _ = y := collapseGo_of_no_double _ y hnd

/-- C9: `normalize` is idempotent, and it lowercases, strips
leading/trailing whitespace, and collapses interior space runs:
`normalize("  Data   MINING ") == "data mining"`. -/
theorem normalize_query_idempotent :
    (∀ s : String, normalize_query (normalize_query s) = normalize_query s) ∧
    normalize_query "  Data   MINING " = "data mining" := by
  constructor
  · intro s
    exact congrArg String.mk (normalizeChars_idem s.data)
  · decide
